import Mathlib

/-!
# Chunk viewer: mini-chunk classifier, leaf table and node-tree refresh

A shallow embedding of `src/src/main.cpp` (GlyphXTools chunk viewer):
`IsProbablyMiniChunk`, the mini-chunk branch of `SetNodeInfo`, `RemoveChildren`,
`SetNodes`, `FillNodeTree` and `RefreshFile`.

Conventions.
* A `char` buffer is a `List Byte` with `Byte = Fin 256`; a `char*` into a buffer is the
  suffix of the buffer starting at the pointed byte, so `data += k` is `data.drop k`.
* `int` is `Int`; the one conversion from the unsigned chunk size is `toInt32`.
* `unsigned long` is 32 bits wide (the program is a Win32 program), so the sum
  `start + chunk.getSize()` is taken modulo `2 ^ 32`.
-/

namespace ChunkViewer

/-- One `char` of a payload buffer, read as `unsigned char`. -/
abbrev Byte := Fin 256

/-! ## `IsProbablyMiniChunk` (main.cpp, lines 41-50) -/

/-- The byte `data[i]`. `IsProbablyMiniChunk` reads `data[1]` only when `size > 2`, i.e.
inside the buffer whenever `size` is the number of bytes `data` points at; outside the
buffer the model reads `0`. -/
def byteAt (data : List Byte) (i : Nat) : Byte := data.getD i 0

/-- Loop of `IsProbablyMiniChunk`; `k` bounds the iterations still to run. It is started
with `k = size.toNat`, so `k = 0` means `size ≤ 0`: the loop condition is false there and the
function returns `size == 0`. -/
def IsProbablyMiniChunk.loop : Nat → Int → List Byte → Bool
  | 0, size, _ => size == 0
  | k + 1, size, data =>
    if size > 2 ∧ byteAt data 1 ≠ 0 then
      IsProbablyMiniChunk.loop k (size - (((byteAt data 1).val : Int) + 2))
        (data.drop ((byteAt data 1).val + 2))
    else
      size == 0

/-- `IsProbablyMiniChunk(int size, char* data)`:
```
while (size > 2 && data[1] != 0) {
    int msize = (unsigned char)data[1] + 2;
    size -= msize;  data += msize;
}
return (size == 0);
```
An iteration needs `size > 2` and lowers `size` by at least 2, so `size.toNat` iterations
are never used up while the loop condition holds: `IsProbablyMiniChunk_eq` below is the
loop equation of the source, without any bound. -/
def IsProbablyMiniChunk (size : Int) (data : List Byte) : Bool :=
  IsProbablyMiniChunk.loop size.toNat size data

/-- State `(size, data)` of the loop of `IsProbablyMiniChunk` after `k` iterations, when the
loop runs that many. -/
def scanAfter : Nat → Int → List Byte → Option (Int × List Byte)
  | 0, size, data => some (size, data)
  | k + 1, size, data =>
    if size > 2 ∧ byteAt data 1 ≠ 0 then
      scanAfter k (size - (((byteAt data 1).val : Int) + 2)) (data.drop ((byteAt data 1).val + 2))
    else
      none

/-- The scan in the words of spec section 4.5, on the buffer `buf` from offset `off` with
`remaining` bytes unscanned: `ScanEnds sentinel buf off remaining final` says the scan stops
with `final` bytes remaining. The scan continues while `remaining > 2` and the sentinel byte
of the record at `off` is non-zero, and then advances by `2 + length`, the length byte being
the second byte of the record. `sentinel = 0` is the type byte (the first byte of the
record, as the spec has it), `sentinel = 1` the length byte. -/
inductive ScanEnds (sentinel : Nat) (buf : List Byte) : Nat → Int → Int → Prop where
  | stop (off : Nat) (remaining : Int) :
      ¬ (remaining > 2 ∧ byteAt buf (off + sentinel) ≠ 0) →
      ScanEnds sentinel buf off remaining remaining
  | advance (off : Nat) (remaining final : Int) :
      remaining > 2 → byteAt buf (off + sentinel) ≠ 0 →
      ScanEnds sentinel buf (off + (2 + (byteAt buf (off + 1)).val))
        (remaining - (2 + ((byteAt buf (off + 1)).val : Int))) final →
      ScanEnds sentinel buf off remaining final

/-! ## The mini-chunk branch of `SetNodeInfo` (main.cpp, lines 182-199) -/

/-- One record written by the mini-chunk branch of `SetNodeInfo`: `type`, `msize` and the
`msize` payload bytes `FormatNodeInfo(msize, data + 2, ...)` walks over. -/
structure MiniRecord where
  type : Byte
  msize : Byte
  payload : List Byte
  deriving DecidableEq, Repr

/-- Result of running the decode loop: the records in order and the value of `size` when the
loop stops, or the report that an access left the buffer. -/
inductive Decoded where
  | done (records : List MiniRecord) (size : Int)
  | outOfBounds
  deriving DecidableEq, Repr

/-- Bytes of one mini-record: type byte, length byte, payload. -/
def MiniRecord.encode (r : MiniRecord) : List Byte := r.type :: r.msize :: r.payload

/-- Back-to-back concatenation of mini-records. -/
def encodeRecords : List MiniRecord → List Byte
  | [] => []
  | r :: rs => r.encode ++ encodeRecords rs

/-- A complete mini-record: the payload has exactly the declared length. -/
def MiniRecord.Complete (r : MiniRecord) : Prop := r.payload.length = r.msize.val

instance (r : MiniRecord) : Decidable r.Complete := by
  unfold MiniRecord.Complete; exact inferInstance

/-- Loop of the mini-chunk branch; `k` bounds the iterations still to run and `none` means
the bound was used up. `data[0]`, `data[1]` and `data[2 .. 2 + msize)` (the bytes
`FormatNodeInfo` reads) are checked against the end of the buffer. -/
def SetNodeInfo.loop : Nat → Int → List Byte → Option Decoded
  | 0, _, _ => none
  | k + 1, size, data =>
    if size > 0 then
      match data[0]?, data[1]? with
      | some t, some m =>
        if m.val ≤ (data.drop 2).length then
          match SetNodeInfo.loop k (size - ((m.val : Int) + 2)) (data.drop (m.val + 2)) with
          | some (.done rs fin) =>
            some (.done (⟨t, m, (data.drop 2).take m.val⟩ :: rs) fin)
          | other => other
        else some .outOfBounds
      | _, _ => some .outOfBounds
    else some (.done [] size)

/-- The mini-chunk branch of `SetNodeInfo(hWnd, size, data, width)`, entered with `size < 0`:
```
size = -size;
while (size > 0) {
    int type  = (unsigned char)data[0];
    int msize = (unsigned char)data[1];
    ... FormatNodeInfo(msize, data + 2, width, ...) ...
    size -= msize + 2;  data += msize + 2;
}
```
Each iteration lowers `size` by at least 2, so `(-size).toNat + 1` iterations suffice. -/
def SetNodeInfo.miniChunks (size : Int) (data : List Byte) : Option Decoded :=
  SetNodeInfo.loop ((-size).toNat + 1) (-size) data

/-! ## The leaf table entry (main.cpp, lines 106-112) -/

/-- `int size = chunk.getSize();` the conversion of the unsigned 32-bit size to `int`. -/
def toInt32 (n : Nat) : Int :=
  if n % 2 ^ 32 < 2 ^ 31 then ((n % 2 ^ 32 : Nat) : Int) else ((n % 2 ^ 32 : Nat) : Int) - 2 ^ 32

/-- The pair pushed on `nodeData` for a leaf chunk:
```
int   size = chunk.getSize();
char* data = chunk.getData();
if (size < 0x1000 && IsProbablyMiniChunk(size, data)) size = -size;
nodeData.push_back( make_pair(size, data) );
``` -/
def leafEntry (chunkSize : Nat) (data : List Byte) : Int × List Byte :=
  if toInt32 chunkSize < 0x1000 ∧ IsProbablyMiniChunk (toInt32 chunkSize) data = true then
    (-(toInt32 chunkSize), data)
  else
    (toInt32 chunkSize, data)

/-! ## The tree view and the byte sources -/

/-- Text of a tree item. `FillNodeTree` writes the fixed text "Chunk File" on the root;
`SetNodes` writes the chunk type and size as two zero-padded 8-digit hexadecimal numbers.
The model keeps the two numbers the text is printed from. -/
inductive Title where
  | chunkFile
  | chunk (type size : Nat)
  deriving DecidableEq, Repr

/-- A tree-view item with the fields `SetNodes` writes (`TVIF_TEXT`, `TVIF_CHILDREN`,
`TVIF_PARAM`) and its child items in sibling order. -/
inductive Node where
  | mk (text : Title) (cChildren : Nat) (lParam : Int) (children : List Node)
  deriving Repr

/-- Item text. -/
def Node.text : Node → Title
  | .mk t _ _ _ => t

/-- The `cChildren` field: 1 for a group chunk, 0 for a leaf chunk. -/
def Node.cChildren : Node → Nat
  | .mk _ c _ _ => c

/-- The `lParam` field: the handle into the leaf table, or -1. -/
def Node.lParam : Node → Int
  | .mk _ _ l _ => l

/-- Child items, first to last (`TreeView_GetChild`, `TreeView_GetNextSibling`). -/
def Node.children : Node → List Node
  | .mk _ _ _ cs => cs

/-- Modelled from the spec: what a constructed `Chunk` object (ChunkFile.h, not part of the
sources) answers to `getType()`, `getSize()` and `isGroup()`: the header fields of spec
section 3, type and payload size being unsigned 32-bit values. -/
structure Chunk where
  type : Nat
  size : Nat
  isGroup : Bool
  deriving DecidableEq, Repr

/-- Modelled from the spec: the operations of `File` (declared in Files.h, implemented in a
file that is not part of the sources) and of `Chunk` (ChunkFile.h, not part of the sources)
that `SetNodes` calls, as functions on a source state `F`.
* `eof`, `tell`, `seek`: the `File` methods of the same names;
* `newChunk`: the constructor `Chunk chunk(input)`, which reads one header; `none` when it
  throws, otherwise the chunk and the source after the header;
* `getStream`: `chunk.getStream()`, the source over the payload of a group chunk;
* `getData`: `chunk.getData()`, the payload bytes of a leaf chunk; `none` when it throws. -/
structure FileOps (F : Type) where
  eof : F → Bool
  tell : F → Nat
  seek : F → Nat → F
  newChunk : F → Option (Chunk × F)
  getStream : F → Chunk → F
  getData : F → Chunk → Option (List Byte)

/-- State left by a run of `SetNodes`: whether it was left by an exception, the leaf table
`nodeData`, and the child items of `hParent`. -/
structure Outcome where
  threw : Bool
  nodeData : List (Int × List Byte)
  items : List Node

/-- Arithmetic of `unsigned long`, 32 bits wide: the value is taken modulo `2 ^ 32`. -/
def wrapULong (n : Nat) : Nat := n % 2 ^ 32

/-- The source after `input->seek(start + chunk.getSize())`, where `input1` is the source
after the header was read and `start = input1->tell()`; the sum is an `unsigned long`. -/
def nextSibling {F : Type} (ops : FileOps F) (input1 : F) (chunk : Chunk) : F :=
  ops.seek input1 (wrapULong (ops.tell input1 + chunk.size))

/-- `RemoveChildren(hTree, hItem)` (main.cpp, lines 52-60): deletes every child of the item,
each after its own children; the item itself stays. -/
def RemoveChildren : Node → Node
  | .mk text cChildren lParam _ => .mk text cChildren lParam []

/-- `TreeView_SetItem` with the mask `TVIF_CHILDREN | TVIF_TEXT | TVIF_PARAM`: the three
fields are overwritten, the child items are not touched. -/
def setItem (text : Title) (cChildren : Nat) (lParam : Int) : Node → Node
  | .mk _ _ _ children => .mk text cChildren lParam children

/-- The item with its child items replaced, as the recursion on the item leaves it. -/
def Node.withChildren : Node → List Node → Node
  | .mk text cChildren lParam _, children => .mk text cChildren lParam children

/-- The item at `hItem` after lines 74-97 of `SetNodes`: `items` are the siblings from
`hItem` on. With `hItem == NULL` a new item is inserted last, without children; otherwise
the item there is edited: its children are removed when the chunk is a leaf, and text,
`cChildren` and `lParam` are set. -/
def placeItem (chunk : Chunk) (lParam : Int) : List Node → Node
  | [] => Node.mk (Title.chunk chunk.type chunk.size) (if chunk.isGroup then 1 else 0) lParam []
  | hItem :: _ =>
    setItem (Title.chunk chunk.type chunk.size) (if chunk.isGroup then 1 else 0) lParam
      (if chunk.isGroup then hItem else RemoveChildren hItem)

/-- `SetNodes(nodeData, hTree, hParent, input)` (main.cpp, lines 62-128).

`items` are the child items of `hParent` from `hItem` on (`items.tail` is what
`TreeView_GetNextSibling` leads to); the result lists the child items from that position on
when the call is left. `fuel` bounds the depth of calls (each loop iteration is one call on
the remaining siblings); `none` means the bound was used up.

* `while (!input->eof())`: at end of input the trailing items are removed with their
  subtrees (lines 120-127) and the call returns.
* `Chunk chunk(input)`: when the constructor throws, nothing has been written yet.
* The item is inserted or edited (`placeItem`) with `lParam = isGroup ? -1 :
  nodeData.size()`, before the chunk is processed.
* Group: recursion on the children of the item with `chunk.getStream()`. Leaf:
  `chunk.getData()`, then `leafEntry` is pushed on `nodeData`.
* `input->seek(start + chunk.getSize())` with `start` the cursor after the header
  (`nextSibling`), whatever the recursion or the payload read did to the cursor; then the
  loop goes on with the next sibling. An exception leaves everything written so far. -/
def SetNodes {F : Type} (ops : FileOps F) :
    Nat → List (Int × List Byte) → List Node → F → Option Outcome
  | 0, _, _, _ => none
  | fuel + 1, nodeData, items, input =>
    if ops.eof input then
      some ⟨false, nodeData, []⟩
    else
      match ops.newChunk input with
      | none => some ⟨true, nodeData, items⟩
      | some (chunk, input1) =>
        let item := placeItem chunk (if chunk.isGroup then -1 else (nodeData.length : Int)) items
        let next := nextSibling ops input1 chunk
        if chunk.isGroup then
          match SetNodes ops fuel nodeData item.children (ops.getStream input1 chunk) with
          | none => none
          | some sub =>
            if sub.threw then
              some ⟨true, sub.nodeData, item.withChildren sub.items :: items.tail⟩
            else
              match SetNodes ops fuel sub.nodeData items.tail next with
              | none => none
              | some r => some ⟨r.threw, r.nodeData, item.withChildren sub.items :: r.items⟩
        else
          match ops.getData input1 chunk with
          | none => some ⟨true, nodeData, item :: items.tail⟩
          | some data =>
            match SetNodes ops fuel (nodeData ++ [leafEntry chunk.size data]) items.tail next with
            | none => none
            | some r => some ⟨r.threw, r.nodeData, item :: r.items⟩

/-- The part of `ApplicationInfo` that `FillNodeTree` works on: the content of the tree view
`hNodeTree` (its root item, if any) and the leaf table `nodeData`. -/
structure ApplicationInfo where
  tree : Option Node
  nodeData : List (Int × List Byte)

/-- Root item `FillNodeTree` inserts when the tree view is empty. -/
def newRoot : Node := Node.mk Title.chunkFile 1 (-1) []

/-- Root item `FillNodeTree` passes to `SetNodes`. -/
def rootOf (info : ApplicationInfo) : Node :=
  match info.tree with
  | some r => r
  | none => newRoot

/-- `FillNodeTree(info, file)` (main.cpp, lines 130-153): clears `nodeData`, inserts the root
item when there is none, and runs `SetNodes` on the children of the root. The result is
whether the call was left by an exception, and the state it leaves. -/
def FillNodeTree {F : Type} (ops : FileOps F) (fuel : Nat) (info : ApplicationInfo) (file : F) :
    Option (Bool × ApplicationInfo) :=
  match SetNodes ops fuel [] (rootOf info).children file with
  | none => none
  | some r =>
    some (r.threw,
      ⟨some (Node.mk (rootOf info).text (rootOf info).cChildren (rootOf info).lParam r.items),
       r.nodeData⟩)

/-- `RefreshFile(info)` (main.cpp, lines 260-281): opens the file again (`file = none` when
`new PhysicalFile` throws), runs `FillNodeTree`, and catches every exception; the result is
the state the application is left in. -/
def RefreshFile {F : Type} (ops : FileOps F) (fuel : Nat) (info : ApplicationInfo)
    (file : Option F) : Option ApplicationInfo :=
  match file with
  | none => some info
  | some f => (FillNodeTree ops fuel info f).map Prod.snd

/-- States of the application: the empty one at start-up, and those left by a call of
`FillNodeTree`, whether it returned or threw. -/
inductive Reachable {F : Type} (ops : FileOps F) : ApplicationInfo → Prop where
  | init : Reachable ops ⟨none, []⟩
  | fill (fuel : Nat) (file : F) (threw : Bool) (info next : ApplicationInfo) :
      Reachable ops info → FillNodeTree ops fuel info file = some (threw, next) →
      Reachable ops next

/-! ## The chunk structure of a source (spec section 4.4) -/

/-- The chunks of a source as the spec describes them: a leaf with its payload bytes, or a
group with the chunks of its payload window. -/
inductive ChunkTree where
  | leaf (type size : Nat) (data : List Byte)
  | group (type size : Nat) (children : List ChunkTree)
  deriving Repr

/-- Where the reference decoder stopped when a read failed: at a header (the `Chunk`
constructor threw), at the payload of a leaf chunk whose header was read, or inside a group
chunk whose header was read, after the chunks `before` of that group. -/
inductive Stop where
  | header
  | payload (type size : Nat)
  | inside (type size : Nat) (before : List ChunkTree) (stop : Stop)

/-- Result of the reference decoder: the chunks of the source, or, when a read failed, the
sibling chunks decoded before the failure and where it stopped. -/
inductive Parsed where
  | chunks (ts : List ChunkTree)
  | failed (before : List ChunkTree) (stop : Stop)

/-- Reference decoder following spec section 4.4: until the source is at its end, read a
header, record `childStart`, descend into a group or read the payload of a leaf, then seek
to `childStart + size` for the next sibling. It builds no tree view and no leaf table.
`fuel` bounds the depth of calls exactly as in `SetNodes`. -/
def parseChunks {F : Type} (ops : FileOps F) : Nat → F → Option Parsed
  | 0, _ => none
  | fuel + 1, input =>
    if ops.eof input then
      some (.chunks [])
    else
      match ops.newChunk input with
      | none => some (.failed [] .header)
      | some (chunk, input1) =>
        let next := nextSibling ops input1 chunk
        if chunk.isGroup then
          match parseChunks ops fuel (ops.getStream input1 chunk) with
          | none => none
          | some (.failed before stop) =>
            some (.failed [] (.inside chunk.type chunk.size before stop))
          | some (.chunks kids) =>
            match parseChunks ops fuel next with
            | none => none
            | some (.failed before stop) =>
              some (.failed (.group chunk.type chunk.size kids :: before) stop)
            | some (.chunks rest) => some (.chunks (.group chunk.type chunk.size kids :: rest))
        else
          match ops.getData input1 chunk with
          | none => some (.failed [] (.payload chunk.type chunk.size))
          | some data =>
            match parseChunks ops fuel next with
            | none => none
            | some (.failed before stop) =>
              some (.failed (.leaf chunk.type chunk.size data :: before) stop)
            | some (.chunks rest) => some (.chunks (.leaf chunk.type chunk.size data :: rest))

mutual
/-- Payloads of the leaf chunks below a chunk, in depth-first stream order. -/
def ChunkTree.payloads : ChunkTree → List (List Byte)
  | .leaf _ _ data => [data]
  | .group _ _ children => ChunkTree.payloadsOf children
/-- Payloads of the leaf chunks of a chunk sequence, in depth-first stream order. -/
def ChunkTree.payloadsOf : List ChunkTree → List (List Byte)
  | [] => []
  | t :: ts => t.payloads ++ ChunkTree.payloadsOf ts
end

mutual
/-- Leaf table entries of the leaf chunks below a chunk, in depth-first stream order. -/
def ChunkTree.entries : ChunkTree → List (Int × List Byte)
  | .leaf _ size data => [leafEntry size data]
  | .group _ _ children => ChunkTree.entriesOf children
/-- Leaf table entries of a chunk sequence, in depth-first stream order. -/
def ChunkTree.entriesOf : List ChunkTree → List (Int × List Byte)
  | [] => []
  | t :: ts => t.entries ++ ChunkTree.entriesOf ts
end

mutual
/-- Tree item of a chunk when `k` leaves were discovered before it: a leaf carries handle
`k` and has no children, a group carries -1 and the items of its chunks. -/
def ChunkTree.toNode (k : Nat) : ChunkTree → Node
  | .leaf type size _ => Node.mk (.chunk type size) 0 k []
  | .group type size children => Node.mk (.chunk type size) 1 (-1) (ChunkTree.toNodes k children)
/-- Tree items of a chunk sequence when `k` leaves were discovered before it. -/
def ChunkTree.toNodes (k : Nat) : List ChunkTree → List Node
  | [] => []
  | t :: ts => t.toNode k :: ChunkTree.toNodes (k + t.payloads.length) ts
end

/-- Child items of the first item of a sibling list, none when the list is empty. -/
def headChildren : List Node → List Node
  | [] => []
  | hItem :: _ => hItem.children

/-- Leaf table entries of the leaf chunks decoded inside the group chunks a failure lies in. -/
def Stop.entries : Stop → List (Int × List Byte)
  | .header => []
  | .payload _ _ => []
  | .inside _ _ before stop => ChunkTree.entriesOf before ++ stop.entries

/-- The sibling items from the failing position on, when `k` leaves were discovered before
and `items` were there. A failed header read leaves them all as they were. A failed payload
read leaves the item of the leaf (handle `k`, no children) in the first position. A failure
inside a group leaves the item of the group in the first position, its children being the
items of the chunks decoded before the failure followed by what the failure left of the
children that were there. The items after the first position are as they were. -/
def Stop.items : Nat → Stop → List Node → List Node
  | _, .header, items => items
  | k, .payload type size, items => Node.mk (.chunk type size) 0 k [] :: items.tail
  | k, .inside type size before stop, items =>
    Node.mk (.chunk type size) 1 (-1)
      (ChunkTree.toNodes k before ++
        stop.items (k + (ChunkTree.payloadsOf before).length)
          ((headChildren items).drop before.length)) :: items.tail

/-- The sibling items after a failed pass over `items`, when `k` leaves were discovered
before: the items of the chunks decoded before the failure, then `Stop.items` on the items
from the failing position on. -/
def failedItems (k : Nat) (before : List ChunkTree) (stop : Stop) (items : List Node) :
    List Node :=
  ChunkTree.toNodes k before ++
    stop.items (k + (ChunkTree.payloadsOf before).length) (items.drop before.length)

mutual
/-- Handles of the leaf items (`cChildren = 0`) at and below an item, in depth-first order. -/
def Node.leafHandles : Node → List Int
  | .mk _ c l cs => if c = 0 then l :: Node.leafHandlesOf cs else Node.leafHandlesOf cs
/-- Handles of the leaf items of a sibling list, in depth-first order. -/
def Node.leafHandlesOf : List Node → List Int
  | [] => []
  | n :: ns => n.leafHandles ++ Node.leafHandlesOf ns
end

mutual
/-- Handles of the group items (`cChildren ≠ 0`) at and below an item. -/
def Node.groupHandles : Node → List Int
  | .mk _ c l cs => if c = 0 then Node.groupHandlesOf cs else l :: Node.groupHandlesOf cs
/-- Handles of the group items of a sibling list. -/
def Node.groupHandlesOf : List Node → List Int
  | [] => []
  | n :: ns => n.groupHandles ++ Node.groupHandlesOf ns
end

mutual
/-- Every handle stored at or below an item. -/
def Node.handles : Node → List Int
  | .mk _ _ l cs => l :: Node.handlesOf cs
/-- Every handle stored in a sibling list. -/
def Node.handlesOf : List Node → List Int
  | [] => []
  | n :: ns => n.handles ++ Node.handlesOf ns
end

/-! ## An in-memory byte source (spec sections 4.1-4.4) -/

/-- Modelled from the spec: the choices the spec leaves to the target format and to the
implementer of the byte sources, none of which is fixed by the sources at hand:
* `headerSize`, `decode`: the fixed-width header and how type, payload size and the group
  flag are read from its bytes (sections 3 and 6);
* `clampSeek`: whether `seek` beyond the size is clamped to the size or sets the cursor as
  asked (sections 4.1, 4.3 and 9). -/
structure SourceConfig where
  headerSize : Nat
  decode : List Byte → Chunk
  clampSeek : Bool

/-- Modelled from the spec: a byte source (`File`; Files.h declares it, its implementation is
not part of the sources). It is the window `[start, start + size)` of the bytes of the
physical file, with a local cursor `offset` (spec section 3, PhysicalSource and
WindowedSource; a physical file is the window over all its bytes). -/
structure MemFile where
  bytes : List Byte
  start : Nat
  size : Nat
  offset : Nat
  deriving DecidableEq, Repr

/-- Modelled from the spec: a freshly opened physical file. -/
def MemFile.ofBytes (bytes : List Byte) : MemFile := ⟨bytes, 0, bytes.length, 0⟩

/-- Modelled from the spec: `read(buffer, count)` (section 4.3): at most `count` bytes, at
most what is left of the window, taken at `start + offset` of the backing bytes, short at
the end of the physical file; the cursor advances by the bytes returned. -/
def MemFile.read (f : MemFile) (count : Nat) : List Byte × MemFile :=
  let got := (f.bytes.drop (f.start + f.offset)).take (min count (f.size - f.offset))
  (got, { f with offset := f.offset + got.length })

/-- Modelled from the spec: `eof()` is "position == size" (section 4.1). -/
def MemFile.eof (f : MemFile) : Bool := f.offset == f.size

/-- Modelled from the spec: `seek(o)` sets the cursor to `o`, clamped to the size when the
configuration says so (section 4.3). -/
def MemFile.seek (fmt : SourceConfig) (f : MemFile) (o : Nat) : MemFile :=
  { f with offset := if fmt.clampSeek then min o f.size else o }

/-- Modelled from the spec: `Chunk chunk(input)` reads the fixed-width header and fails
when the header is cut short (sections 4.4 and 7). -/
def MemFile.newChunk (fmt : SourceConfig) (f : MemFile) : Option (Chunk × MemFile) :=
  if (f.read fmt.headerSize).1.length = fmt.headerSize then
    some (fmt.decode (f.read fmt.headerSize).1, (f.read fmt.headerSize).2)
  else none

/-- Modelled from the spec: `chunk.getStream()`, a window over the same backing bytes with
`start = childStart` in absolute coordinates and `length = size` (section 4.4). -/
def MemFile.getStream (f : MemFile) (chunk : Chunk) : MemFile :=
  ⟨f.bytes, f.start + f.offset, chunk.size, 0⟩

/-- Modelled from the spec: `chunk.getData()` reads exactly `size` bytes at `childStart`
(section 4.4); a payload that ends before its declared size is an error (section 7). -/
def MemFile.getData (f : MemFile) (chunk : Chunk) : Option (List Byte) :=
  if (f.read chunk.size).1.length = chunk.size then some (f.read chunk.size).1 else none

/-- Modelled from the spec: the operations `SetNodes` uses, over `MemFile`. -/
def memOps (fmt : SourceConfig) : FileOps MemFile where
  eof := MemFile.eof
  tell := MemFile.offset
  seek := MemFile.seek fmt
  newChunk := MemFile.newChunk fmt
  getStream := MemFile.getStream
  getData := MemFile.getData

/-- A little-endian 32-bit word at the head of a byte list. -/
def le32 (bs : List Byte) : Nat :=
  (byteAt bs 0).val + 256 * (byteAt bs 1).val + 65536 * (byteAt bs 2).val
    + 16777216 * (byteAt bs 3).val

/-- Modelled from the spec: a 4+4 byte little-endian header (the spec's example width) in
which bit 31 of the size word is the group flag and the low 31 bits are the payload size;
`seek` clamps. -/
def flagFormat : SourceConfig where
  headerSize := 8
  decode := fun hdr => ⟨le32 hdr, le32 (hdr.drop 4) % 2 ^ 31, decide (2 ^ 31 ≤ le32 (hdr.drop 4))⟩
  clampSeek := true

/-! ## Concrete sources and trees used in the examples -/

/-- A source with two leaf chunks: type 1, size 3, payload `05 01 07`; type 2, size 0. -/
def twoLeafFile : MemFile := MemFile.ofBytes
  [1, 0, 0, 0,  3, 0, 0, 0,  5, 1, 7,
   2, 0, 0, 0,  0, 0, 0, 0]

/-- A source with a leaf chunk (type 1, size 3, payload `05 01 07`) followed by a group chunk
(type 2, size 10) that holds one leaf chunk (type 9, size 2, payload `AA BB`). -/
def nestedFile : MemFile := MemFile.ofBytes
  [1, 0, 0, 0,  3, 0, 0, 0,  5, 1, 7,
   2, 0, 0, 0,  10, 0, 0, 0x80,
     9, 0, 0, 0,  2, 0, 0, 0,  0xAA, 0xBB]

/-- A source with one leaf chunk (type 4, size 1, payload `FF`) followed by three stray
bytes, too few for a header. -/
def truncatedFile : MemFile := MemFile.ofBytes
  [4, 0, 0, 0,  1, 0, 0, 0,  0xFF,
   2, 0, 0]

/-- Three sibling leaf items, as left by a source with three leaf chunks. -/
def threeLeaves : List Node :=
  [Node.mk (.chunk 1 3) 0 0 [], Node.mk (.chunk 2 0) 0 1 [], Node.mk (.chunk 7 1) 0 2 []]

/-- The state `FillNodeTree` leaves when it materializes `nestedFile` from the empty state. -/
def nestedState : ApplicationInfo :=
  ⟨some (Node.mk .chunkFile 1 (-1)
      [Node.mk (.chunk 1 3) 0 0 [],
       Node.mk (.chunk 2 10) 1 (-1) [Node.mk (.chunk 9 2) 0 1 []]]),
   [(-3, [5, 1, 7]), (2, [0xAA, 0xBB])]⟩

/-- The outcome of `SetNodes` on `twoLeafFile` with an empty leaf table. -/
def twoLeafOutcome : Outcome :=
  ⟨false, [(-3, [5, 1, 7]), (0, [])], [Node.mk (.chunk 1 3) 0 0 [], Node.mk (.chunk 2 0) 0 1 []]⟩

/-- The state a failed `FillNodeTree` of `truncatedFile` leaves when run on `nestedState`. -/
def failedState : ApplicationInfo :=
  ⟨some (Node.mk .chunkFile 1 (-1)
      [Node.mk (.chunk 4 1) 0 0 [],
       Node.mk (.chunk 2 10) 1 (-1) [Node.mk (.chunk 9 2) 0 1 []]]),
   [(1, [0xFF])]⟩

/-- A payload of 4096 bytes: sixteen records of type 1 with 254 zero payload bytes each. -/
def bigPayload : List Byte :=
  encodeRecords (List.replicate 16 ⟨1, 254, List.replicate 254 0⟩)

/-- A declared leaf size of `2^32 - 16` bytes, which `int` holds as -16. With its 8-byte
header the chunk fits a source below `2^32` bytes. -/
def hugeSize : Nat := 4294967280

/-- A payload of `hugeSize` bytes: `01 FF` followed by zero bytes. -/
def hugePayload : List Byte := 1 :: 255 :: List.replicate 4294967278 0

/-- The first chunk of `twoLeafFile`: a leaf of type 1 and size 3. -/
def firstLeaf : Chunk := ⟨1, 3, false⟩

/-- The source `twoLeafFile` after the header of its first chunk was read. -/
def twoLeafAfterHeader : MemFile := { twoLeafFile with offset := 8 }

/-! ## Lemmas on the classifier -/

theorem byteAt_drop (data : List Byte) (n i : Nat) :
    byteAt (data.drop n) i = byteAt data (n + i) := by
  simp [byteAt, List.getD_eq_getElem?_getD, List.getElem?_drop]

theorem IsProbablyMiniChunk.loop_fuel (k1 : Nat) :
    ∀ (k2 : Nat) (size : Int) (data : List Byte), size.toNat ≤ k1 → size.toNat ≤ k2 →
      IsProbablyMiniChunk.loop k1 size data = IsProbablyMiniChunk.loop k2 size data := by
  induction k1 with
  | zero =>
    intro k2 size data h1 h2
    cases k2 with
    | zero => rfl
    | succ k2 =>
      have hs : ¬ size > 2 := by omega
      simp [IsProbablyMiniChunk.loop, hs]
  | succ k1 ih =>
    intro k2 size data h1 h2
    cases k2 with
    | zero =>
      have hs : ¬ size > 2 := by omega
      simp [IsProbablyMiniChunk.loop, hs]
    | succ k2 =>
      simp only [IsProbablyMiniChunk.loop]
      split
      · rename_i h
        apply ih <;> omega
      · rfl

/-- The loop equation of the source: one test of the loop condition, then either one
iteration followed by the rest of the loop, or `return (size == 0)`. -/
theorem IsProbablyMiniChunk_eq (size : Int) (data : List Byte) :
    IsProbablyMiniChunk size data =
      if size > 2 ∧ byteAt data 1 ≠ 0 then
        IsProbablyMiniChunk (size - (((byteAt data 1).val : Int) + 2))
          (data.drop ((byteAt data 1).val + 2))
      else size == 0 := by
  unfold IsProbablyMiniChunk
  cases h : size.toNat with
  | zero =>
    have hs : ¬ size > 2 := by omega
    simp [IsProbablyMiniChunk.loop, hs]
  | succ n =>
    simp only [IsProbablyMiniChunk.loop]
    split
    · rename_i hc
      apply IsProbablyMiniChunk.loop_fuel <;> omega
    · rfl

theorem IsProbablyMiniChunk_of_nonpos (size : Int) (data : List Byte) (h : size ≤ 2) :
    IsProbablyMiniChunk size data = (size == 0) := by
  rw [IsProbablyMiniChunk_eq]
  have hs : ¬ size > 2 := by omega
  simp [hs]

theorem ScanEnds.sound_length (buf : List Byte) (off : Nat) (remaining final : Int)
    (h : ScanEnds 1 buf off remaining final) :
    IsProbablyMiniChunk remaining (buf.drop off) = (final == 0) := by
  induction h with
  | stop off remaining hc =>
    rw [IsProbablyMiniChunk_eq, byteAt_drop]
    simp only [hc, if_false]
  | advance off remaining final h1 h2 _ ih =>
    rw [IsProbablyMiniChunk_eq, byteAt_drop, if_pos ⟨h1, h2⟩, List.drop_drop]
    have e1 : remaining - (((byteAt buf (off + 1)).val : Int) + 2)
        = remaining - (2 + ((byteAt buf (off + 1)).val : Int)) := by omega
    have e2 : off + ((byteAt buf (off + 1)).val + 2) = off + (2 + (byteAt buf (off + 1)).val) := by
      omega
    rw [e1, e2]
    exact ih

theorem ScanEnds.total (sentinel : Nat) (buf : List Byte) (n : Nat) :
    ∀ (off : Nat) (remaining : Int), remaining.toNat ≤ n →
      ∃ final, ScanEnds sentinel buf off remaining final := by
  induction n with
  | zero =>
    intro off remaining h
    exact ⟨remaining, ScanEnds.stop off remaining (by omega)⟩
  | succ n ih =>
    intro off remaining h
    by_cases hc : remaining > 2 ∧ byteAt buf (off + sentinel) ≠ 0
    · obtain ⟨final, hf⟩ := ih (off + (2 + (byteAt buf (off + 1)).val))
        (remaining - (2 + ((byteAt buf (off + 1)).val : Int))) (by omega)
      exact ⟨final, ScanEnds.advance off remaining final hc.1 hc.2 hf⟩
    · exact ⟨remaining, ScanEnds.stop off remaining hc⟩

theorem ScanEnds.of_stop (sentinel : Nat) (buf : List Byte) (off : Nat) (remaining final : Int)
    (h : ScanEnds sentinel buf off remaining final)
    (hc : ¬ (remaining > 2 ∧ byteAt buf (off + sentinel) ≠ 0)) : final = remaining := by
  cases h with
  | stop _ _ _ => rfl
  | advance _ _ _ h1 h2 _ => exact absurd ⟨h1, h2⟩ hc

theorem classifier_accepts_records (recs : List MiniRecord)
    (h : ∀ r ∈ recs, r.msize ≠ 0 ∧ r.Complete) :
    IsProbablyMiniChunk (encodeRecords recs).length (encodeRecords recs) = true := by
  induction recs with
  | nil => decide
  | cons r rs ih =>
    have hr := h r (List.mem_cons_self r rs)
    have hpos : 0 < r.msize.val := by
      have h0 : r.msize ≠ 0 := hr.1
      exact Nat.pos_of_ne_zero (fun hz => h0 (Fin.ext hz))
    have hlen : r.payload.length = r.msize.val := hr.2
    rw [IsProbablyMiniChunk_eq]
    have hb : byteAt (encodeRecords (r :: rs)) 1 = r.msize := by
      simp [encodeRecords, MiniRecord.encode, byteAt]
    have hl : (encodeRecords (r :: rs)).length = r.msize.val + 2 + (encodeRecords rs).length := by
      simp [encodeRecords, MiniRecord.encode, hlen]; omega
    have hd : (encodeRecords (r :: rs)).drop (r.msize.val + 2) = encodeRecords rs := by
      simp only [encodeRecords, MiniRecord.encode]
      rw [show r.type :: r.msize :: r.payload ++ encodeRecords rs
            = (r.type :: r.msize :: r.payload) ++ encodeRecords rs from rfl]
      rw [List.drop_append_of_le_length (by simp [hlen])]
      rw [List.drop_of_length_le (by simp [hlen])]
      rfl
    rw [hb, hd, hl]
    have hc : ((r.msize.val + 2 + (encodeRecords rs).length : Nat) : Int) > 2 ∧ r.msize ≠ 0 :=
      ⟨by omega, hr.1⟩
    rw [if_pos hc]
    have e : ((r.msize.val + 2 + (encodeRecords rs).length : Nat) : Int) - ((r.msize.val : Int) + 2)
        = ((encodeRecords rs).length : Int) := by omega
    rw [e]
    exact ih (fun r' hr' => h r' (List.mem_cons_of_mem r hr'))

theorem scanAfter_classifier (k : Nat) :
    ∀ (size : Int) (data : List Byte) (size1 : Int) (data1 : List Byte),
      scanAfter k size data = some (size1, data1) →
      IsProbablyMiniChunk size data = IsProbablyMiniChunk size1 data1 := by
  induction k with
  | zero =>
    intro size data size1 data1 h
    simp only [scanAfter, Option.some.injEq, Prod.mk.injEq] at h
    rw [h.1, h.2]
  | succ k ih =>
    intro size data size1 data1 h
    simp only [scanAfter] at h
    split at h
    · rename_i hc
      rw [IsProbablyMiniChunk_eq, if_pos hc]
      exact ih _ _ _ _ h
    · cases h

/-! ## Claims on the classifier -/

/-- C1 (as amended): for every byte buffer, `IsProbablyMiniChunk(size, data)` returns true
exactly when the scan that starts at offset 0 with `remaining = size`, continues while
`remaining > 2` and the length byte (the second byte) of the record at the current offset
is non-zero, and advances by `2 + length`, stops with exactly 0 bytes remaining. -/
theorem IsProbablyMiniChunk_iff_length_scan (data : List Byte) :
    IsProbablyMiniChunk data.length data = true ↔ ScanEnds 1 data 0 data.length 0 := by
  constructor
  · intro h
    obtain ⟨final, hf⟩ := ScanEnds.total 1 data (data.length : Int).toNat 0 data.length (le_refl _)
    have hs := ScanEnds.sound_length data 0 data.length final hf
    rw [List.drop_zero, h] at hs
    have h0 : final = 0 := by simpa using hs.symm
    rw [h0] at hf
    exact hf
  · intro h
    have hs := ScanEnds.sound_length data 0 data.length 0 h
    rw [List.drop_zero] at hs
    rw [hs]
    rfl

/-- C1 (as stated) fails: on the 3-byte buffer `00 01 AA` the classifier returns true (the
length byte 01 is non-zero and the record consumes the buffer exactly), while the scan that
stops on a zero type byte stops at once with 3 bytes remaining. -/
theorem IsProbablyMiniChunk_not_type_scan :
    ¬ ∀ data : List Byte,
      (IsProbablyMiniChunk data.length data = true ↔ ScanEnds 0 data 0 data.length 0) := by
  intro h
  have hs : ScanEnds 0 [0x00, 0x01, 0xAA] 0 3 0 := (h [0x00, 0x01, 0xAA]).mp (by decide)
  have h3 := ScanEnds.of_stop 0 [0x00, 0x01, 0xAA] 0 3 0 hs (by decide)
  exact absurd h3 (by decide)

/-- C2 (as amended): every buffer that is the back-to-back concatenation of complete
mini-records (type byte, length byte, exactly `length` payload bytes) whose length bytes are
all non-zero, with no bytes left over, is accepted by `IsProbablyMiniChunk`; the type bytes
are arbitrary. -/
theorem IsProbablyMiniChunk_of_records (recs : List MiniRecord)
    (h : ∀ r ∈ recs, r.msize ≠ 0 ∧ r.Complete) :
    IsProbablyMiniChunk (encodeRecords recs).length (encodeRecords recs) = true :=
  classifier_accepts_records recs h

/-- C2 witness: the spec's buffer `01 02 AA BB 02 01 CC` (size 7) is the concatenation of
the records (1, 2, AA BB) and (2, 1, CC) and is accepted. -/
theorem IsProbablyMiniChunk_of_records_witness :
    encodeRecords [⟨0x01, 0x02, [0xAA, 0xBB]⟩, ⟨0x02, 0x01, [0xCC]⟩]
        = [0x01, 0x02, 0xAA, 0xBB, 0x02, 0x01, 0xCC] ∧
      IsProbablyMiniChunk 7 [0x01, 0x02, 0xAA, 0xBB, 0x02, 0x01, 0xCC] = true :=
  ⟨by decide,
   IsProbablyMiniChunk_of_records [⟨0x01, 0x02, [0xAA, 0xBB]⟩, ⟨0x02, 0x01, [0xCC]⟩] (by decide)⟩

/-- C2 (as stated) fails: the single complete record with non-zero type 01 and length 00
is the 2-byte buffer `01 00`, which the classifier rejects (the loop needs `size > 2`). -/
theorem IsProbablyMiniChunk_rejects_empty_record :
    ¬ ∀ recs : List MiniRecord, recs ≠ [] → (∀ r ∈ recs, r.type ≠ 0 ∧ r.Complete) →
      IsProbablyMiniChunk (encodeRecords recs).length (encodeRecords recs) = true := by
  intro h
  exact absurd (h [⟨0x01, 0x00, []⟩] (by decide) (by decide)) (by decide)

/-- C3: when the scan of `IsProbablyMiniChunk` over a buffer reaches, after any number of
iterations, a record (`size > 0` bytes remain) whose declared length exceeds the bytes
remaining after its two header bytes (`2 + length > size`), the classifier returns false. -/
theorem IsProbablyMiniChunk_false_of_overlong (data : List Byte) (k : Nat) (size1 : Int)
    (data1 : List Byte) (hreach : scanAfter k data.length data = some (size1, data1))
    (hpos : 0 < size1) (hlong : 2 + ((byteAt data1 1).val : Int) > size1) :
    IsProbablyMiniChunk data.length data = false := by
  rw [scanAfter_classifier k _ _ _ _ hreach, IsProbablyMiniChunk_eq]
  split
  · rw [IsProbablyMiniChunk_of_nonpos _ _ (by omega)]
    simp only [beq_eq_false_iff_ne, ne_eq]
    omega
  · simp only [beq_eq_false_iff_ne, ne_eq]
    omega

/-- C3 witness: on the spec's buffer `FF FF 00` (size 3) the first record declares length
255, more than the bytes remaining, and the classifier returns false. -/
theorem IsProbablyMiniChunk_false_of_overlong_witness :
    scanAfter 0 3 [0xFF, 0xFF, 0x00] = some (3, [0xFF, 0xFF, 0x00]) ∧
      IsProbablyMiniChunk 3 [0xFF, 0xFF, 0x00] = false :=
  ⟨by decide,
   IsProbablyMiniChunk_false_of_overlong [0xFF, 0xFF, 0x00] 0 3 [0xFF, 0xFF, 0x00]
     (by decide) (by decide) (by decide)⟩

/-! ## The decode loop of `SetNodeInfo` on accepted payloads -/

theorem toInt32_of_lt (s : Nat) (h : s < 2 ^ 31) : toInt32 s = (s : Int) := by
  unfold toInt32
  have h1 : s % 2 ^ 32 = s := Nat.mod_eq_of_lt (by omega)
  rw [h1, if_pos h]

theorem decode_accepted (k : Nat) :
    ∀ (data : List Byte), IsProbablyMiniChunk data.length data = true → data.length < k →
      ∃ recs, SetNodeInfo.loop k data.length data = some (.done recs 0) ∧
        (∀ r ∈ recs, 1 ≤ r.msize.val ∧ r.Complete) ∧ encodeRecords recs = data := by
  induction k with
  | zero => intro data _ hk; omega
  | succ k ih =>
    intro data hacc hk
    rw [IsProbablyMiniChunk_eq] at hacc
    by_cases hc : (data.length : Int) > 2 ∧ byteAt data 1 ≠ 0
    · rw [if_pos hc] at hacc
      match data, hc, hacc, hk with
      | [], hc, _, _ => simp at hc
      | [_], hc, _, _ => simp at hc
      | t :: m :: rest, hc, hacc, hk =>
        have hm : byteAt (t :: m :: rest) 1 = m := rfl
        rw [hm] at hacc hc
        have hfit : m.val ≤ rest.length := by
          by_contra hlt
          rw [IsProbablyMiniChunk_of_nonpos _ _ (by simp only [List.length_cons]; omega)] at hacc
          simp only [List.length_cons, beq_iff_eq] at hacc
          omega
        have hdrop : (t :: m :: rest).drop (m.val + 2) = rest.drop m.val := by
          rw [show m.val + 2 = (m.val + 1) + 1 from rfl, List.drop_succ_cons, List.drop_succ_cons]
        have hsize : ((t :: m :: rest).length : Int) - ((m.val : Int) + 2)
            = ((rest.drop m.val).length : Int) := by
          simp only [List.length_cons, List.length_drop]; omega
        rw [hdrop, hsize] at hacc
        obtain ⟨recs, hrun, hall, henc⟩ := ih (rest.drop m.val) hacc (by
          simp only [List.length_cons, List.length_drop] at hk ⊢; omega)
        refine ⟨⟨t, m, rest.take m.val⟩ :: recs, ?_, ?_, ?_⟩
        · have hpos : ((t :: m :: rest).length : Int) > 0 := by omega
          simp only [SetNodeInfo.loop, hpos, if_true, List.getElem?_cons_zero,
            List.getElem?_cons_succ, hsize, hdrop]
          have hfit2 : m.val ≤ (List.drop 2 (t :: m :: rest)).length := by
            simpa using hfit
          rw [if_pos hfit2, hrun]
          rfl
        · intro r hr
          rcases List.mem_cons.mp hr with h1 | h1
          · subst h1
            refine ⟨?_, ?_⟩
            · exact Nat.pos_of_ne_zero (fun hz => hc.2 (Fin.ext hz))
            · simp only [MiniRecord.Complete, List.length_take]; omega
          · exact hall r h1
        · simp only [encodeRecords, MiniRecord.encode, henc, List.cons_append,
            List.take_append_drop]
    · rw [if_neg hc] at hacc
      have h0 : data.length = 0 := by
        have := beq_iff_eq.mp hacc
        omega
      have hnil : data = [] := List.length_eq_zero.mp h0
      subst hnil
      exact ⟨[], rfl, by simp, rfl⟩

theorem leafEntry_fst (s : Nat) (data : List Byte) (hs : s < 2 ^ 31) :
    (leafEntry s data).1 =
      if (s : Int) < 0x1000 ∧ IsProbablyMiniChunk s data = true then -(s : Int) else (s : Int) := by
  unfold leafEntry
  rw [toInt32_of_lt s hs]
  split <;> rfl

theorem leafEntry_snd (s : Nat) (data : List Byte) : (leafEntry s data).2 = data := by
  unfold leafEntry
  split <;> rfl

theorem leafEntry_neg_iff (s : Nat) (data : List Byte) (hs : s < 2 ^ 31) :
    (leafEntry s data).1 < 0 ↔ (0 < s ∧ s < 0x1000 ∧ IsProbablyMiniChunk s data = true) := by
  rw [leafEntry_fst s data hs]
  split
  · rename_i h
    constructor
    · intro hn; exact ⟨by omega, by omega, h.2⟩
    · intro hn; omega
  · rename_i h
    constructor
    · intro hn; omega
    · intro hn; exact absurd ⟨by omega, hn.2.2⟩ h

theorem leafEntry_natAbs (s : Nat) (data : List Byte) (hs : s < 2 ^ 31) :
    (leafEntry s data).1.natAbs = s := by
  rw [leafEntry_fst s data hs]
  split <;> simp

theorem toInt32_hugeSize : toInt32 hugeSize = -16 := by decide

theorem leafEntry_of_negative (s : Nat) (data : List Byte) (h : toInt32 s < 0) :
    leafEntry s data = (toInt32 s, data) := by
  unfold leafEntry
  rw [IsProbablyMiniChunk_of_nonpos _ _ (by omega)]
  have hne : ¬ ((toInt32 s == 0) = true) := by
    simp only [beq_iff_eq]
    omega
  rw [if_neg (fun hc => hne hc.2)]

theorem classifier_rejects_overlong_head (rest : List Byte) :
    IsProbablyMiniChunk 16 (1 :: 255 :: rest) = false := by
  rw [IsProbablyMiniChunk_eq]
  have hb : byteAt (1 :: 255 :: rest) 1 = 255 := rfl
  rw [hb, if_pos ⟨by decide, by decide⟩]
  rw [IsProbablyMiniChunk_of_nonpos _ _ (by decide)]
  decide

theorem decode_overlong_head (rest : List Byte) (h : 255 ≤ rest.length) :
    SetNodeInfo.miniChunks (-16) (1 :: 255 :: rest)
      = some (.done [⟨1, 255, rest.take 255⟩] (-241)) := by
  have h17 : ((-(-16 : Int)).toNat + 1) = 15 + 1 + 1 := by decide
  unfold SetNodeInfo.miniChunks
  rw [h17]
  have hfit : (255 : Byte).val ≤ (List.drop 2 (1 :: 255 :: rest)).length := by
    show 255 ≤ rest.length
    exact h
  have hpos : (-(-16 : Int)) > 0 := by decide
  have hstop : ¬ ((-(-16 : Int)) - (((255 : Byte).val : Int) + 2) > 0) := by decide
  simp only [SetNodeInfo.loop, hpos, if_true, List.getElem?_cons_zero, List.getElem?_cons_succ,
    hfit, hstop, if_false]
  rfl

/-- C10 (as amended): for a leaf payload of declared size `s < 2^31` bytes (the sizes `int`
holds unchanged) that `SetNodes` stores with a negative size `-n`, one has `n = s`,
`0 < n < 0x1000`, and the mini-chunk decode loop of `SetNodeInfo` run on the stored entry
never leaves the buffer (the type byte, the length byte and the payload bytes of every
record lie below offset `n`), stops with remaining size exactly 0, and decodes records that
all have length at least 1, are complete, tile the buffer exactly, and whose sizes
`2 + length` add up to `n`. -/
theorem SetNodeInfo_decodes_stored_entry (s : Nat) (data : List Byte) (hs : s < 2 ^ 31)
    (hlen : data.length = s) (hneg : (leafEntry s data).1 < 0) :
    (leafEntry s data).1 = -(s : Int) ∧ 0 < s ∧ s < 0x1000 ∧
      ∃ recs, SetNodeInfo.miniChunks (leafEntry s data).1 (leafEntry s data).2
          = some (.done recs 0) ∧
        (∀ r ∈ recs, 1 ≤ r.msize.val ∧ r.Complete) ∧ encodeRecords recs = data ∧
        (recs.map (fun r => 2 + r.msize.val)).sum = s := by
  have hcond := (leafEntry_neg_iff s data hs).mp hneg
  have hval : (leafEntry s data).1 = -(s : Int) := by
    rw [leafEntry_fst s data hs, if_pos ⟨by omega, hcond.2.2⟩]
  refine ⟨hval, hcond.1, hcond.2.1, ?_⟩
  subst hlen
  obtain ⟨recs, hrun, hall, henc⟩ :=
    decode_accepted (data.length + 1) data hcond.2.2 (Nat.lt_succ_self _)
  refine ⟨recs, ?_, hall, henc, ?_⟩
  · rw [hval, leafEntry_snd]
    unfold SetNodeInfo.miniChunks
    simp only [neg_neg, Int.toNat_ofNat]
    exact hrun
  · have hsum : ∀ rs : List MiniRecord, (∀ r ∈ rs, r.Complete) →
        (rs.map (fun r => 2 + r.msize.val)).sum = (encodeRecords rs).length := by
      intro rs
      induction rs with
      | nil => intro _; rfl
      | cons r rs ih =>
        intro hc
        have h1 : r.payload.length = r.msize.val := hc r (List.mem_cons_self r rs)
        simp only [List.map_cons, List.sum_cons, encodeRecords, MiniRecord.encode,
          List.length_append, List.length_cons, ih (fun r' hr' => hc r' (List.mem_cons_of_mem r hr')),
          h1]
        omega
    rw [hsum recs (fun r hr => (hall r hr).2), henc]

/-- C10 witness: the 7-byte payload `01 02 AA BB 02 01 CC` is stored with size -7 and
decodes to the records (1, 2, AA BB) and (2, 1, CC). -/
theorem SetNodeInfo_decodes_stored_entry_witness :
    SetNodeInfo.miniChunks (-7) [0x01, 0x02, 0xAA, 0xBB, 0x02, 0x01, 0xCC]
        = some (.done [⟨0x01, 0x02, [0xAA, 0xBB]⟩, ⟨0x02, 0x01, [0xCC]⟩] 0) ∧
      ((leafEntry 7 [0x01, 0x02, 0xAA, 0xBB, 0x02, 0x01, 0xCC]).1 = -((7 : Nat) : Int) ∧
        0 < 7 ∧ 7 < 0x1000 ∧
        ∃ recs, SetNodeInfo.miniChunks (leafEntry 7 [0x01, 0x02, 0xAA, 0xBB, 0x02, 0x01, 0xCC]).1
            (leafEntry 7 [0x01, 0x02, 0xAA, 0xBB, 0x02, 0x01, 0xCC]).2 = some (.done recs 0) ∧
          (∀ r ∈ recs, 1 ≤ r.msize.val ∧ r.Complete) ∧
          encodeRecords recs = [0x01, 0x02, 0xAA, 0xBB, 0x02, 0x01, 0xCC] ∧
          (recs.map (fun r => 2 + r.msize.val)).sum = 7) :=
  ⟨by decide,
   SetNodeInfo_decodes_stored_entry 7 [0x01, 0x02, 0xAA, 0xBB, 0x02, 0x01, 0xCC]
     (by decide) (by decide) (by decide)⟩

/-- C10 (as stated) fails: a leaf of declared size `2^32 - 16` (with its header it fits a
source below `2^32` bytes) whose payload starts `01 FF` is stored with size -16, because
`int size = chunk.getSize()` is negative, although the classifier rejects it, whether asked
about -16 bytes as `SetNodes` does or about 16 bytes. The decode loop of `SetNodeInfo` then
runs with `n = 16`: its one record declares 255 payload bytes, far beyond offset 16, and the
loop stops with remaining size -241, not 0. -/
theorem SetNodeInfo_oversized_leaf_misdecoded :
    hugePayload.length = hugeSize ∧ hugeSize + 8 < 2 ^ 32 ∧
      leafEntry hugeSize hugePayload = (-16, hugePayload) ∧
      IsProbablyMiniChunk (toInt32 hugeSize) hugePayload = false ∧
      IsProbablyMiniChunk 16 hugePayload = false ∧
      SetNodeInfo.miniChunks (leafEntry hugeSize hugePayload).1 (leafEntry hugeSize hugePayload).2
        = some (.done [⟨1, 255, (List.replicate 4294967278 0).take 255⟩] (-241)) := by
  have hentry : leafEntry hugeSize hugePayload = (-16, hugePayload) := by
    rw [leafEntry_of_negative hugeSize hugePayload (by rw [toInt32_hugeSize]; decide),
      toInt32_hugeSize]
  refine ⟨?_, by decide, hentry, ?_, classifier_rejects_overlong_head _, ?_⟩
  · show (1 :: 255 :: List.replicate 4294967278 (0 : Byte)).length = 4294967280
    rw [List.length_cons, List.length_cons, List.length_replicate]
  · rw [toInt32_hugeSize, IsProbablyMiniChunk_of_nonpos _ _ (by decide)]
    decide
  · rw [hentry]
    exact decode_overlong_head (List.replicate 4294967278 0)
      (by rw [List.length_replicate]; decide)

/-! ## Lemmas on `SetNodes` -/

mutual
theorem ChunkTree.entries_length : ∀ t : ChunkTree, t.entries.length = t.payloads.length
  | .leaf _ _ _ => rfl
  | .group _ _ cs => by
    simp only [ChunkTree.entries, ChunkTree.payloads]
    exact ChunkTree.entriesOf_length cs
theorem ChunkTree.entriesOf_length :
    ∀ ts : List ChunkTree, (ChunkTree.entriesOf ts).length = (ChunkTree.payloadsOf ts).length
  | [] => rfl
  | t :: ts => by
    simp only [ChunkTree.entriesOf, ChunkTree.payloadsOf, List.length_append,
      ChunkTree.entries_length t, ChunkTree.entriesOf_length ts]
end

theorem placeItem_group (chunk : Chunk) (lParam : Int) (items cs : List Node)
    (h : chunk.isGroup = true) :
    (placeItem chunk lParam items).withChildren cs
      = Node.mk (Title.chunk chunk.type chunk.size) 1 lParam cs := by
  cases items with
  | nil => simp [placeItem, Node.withChildren, h]
  | cons a as =>
    cases a
    simp [placeItem, setItem, Node.withChildren, h]

theorem placeItem_leaf (chunk : Chunk) (lParam : Int) (items : List Node)
    (h : chunk.isGroup = false) :
    placeItem chunk lParam items = Node.mk (Title.chunk chunk.type chunk.size) 0 lParam [] := by
  cases items with
  | nil => simp [placeItem, h]
  | cons a as =>
    cases a
    simp [placeItem, setItem, RemoveChildren, h]

theorem SetNodes_nodeData_append {F : Type} (ops : FileOps F) (fuel : Nat) :
    ∀ (nd : List (Int × List Byte)) (items : List Node) (f : F) (r : Outcome),
      SetNodes ops fuel nd items f = some r → ∃ l, r.nodeData = nd ++ l := by
  induction fuel with
  | zero => intro nd items f r h; simp [SetNodes] at h
  | succ fuel ih =>
    intro nd items f r h
    simp only [SetNodes] at h
    split at h
    · cases h; exact ⟨[], by simp⟩
    · split at h
      · cases h; exact ⟨[], by simp⟩
      · split at h
        · split at h
          · cases h
          · rename_i sub hsub
            obtain ⟨l1, hl1⟩ := ih _ _ _ _ hsub
            split at h
            · cases h; exact ⟨l1, hl1⟩
            · split at h
              · cases h
              · rename_i r2 hr2
                obtain ⟨l2, hl2⟩ := ih _ _ _ _ hr2
                cases h
                exact ⟨l1 ++ l2, by simp [hl2, hl1]⟩
        · split at h
          · cases h; exact ⟨[], by simp⟩
          · split at h
            · cases h
            · rename_i r2 hr2
              obtain ⟨l2, hl2⟩ := ih _ _ _ _ hr2
              cases h
              exact ⟨_, by rw [hl2, List.append_assoc]⟩

theorem placeItem_children_group (chunk : Chunk) (lParam : Int) (items : List Node)
    (h : chunk.isGroup = true) :
    (placeItem chunk lParam items).children = headChildren items := by
  cases items with
  | nil => simp [placeItem, headChildren, Node.children]
  | cons a as =>
    cases a
    simp [placeItem, setItem, headChildren, Node.children, h]

theorem drop_succ_eq_tail_drop (items : List Node) (n : Nat) :
    items.drop (n + 1) = items.tail.drop n := by
  cases items with
  | nil => simp
  | cons a as => simp

theorem failedItems_nil (k : Nat) (stop : Stop) (items : List Node) :
    failedItems k [] stop items = stop.items k items := by
  simp [failedItems, ChunkTree.toNodes, ChunkTree.payloadsOf]

theorem failedItems_cons (k : Nat) (t : ChunkTree) (before : List ChunkTree) (stop : Stop)
    (items : List Node) :
    failedItems k (t :: before) stop items
      = t.toNode k :: failedItems (k + t.payloads.length) before stop items.tail := by
  simp only [failedItems, ChunkTree.toNodes, ChunkTree.payloadsOf, List.length_append,
    List.length_cons, List.cons_append, drop_succ_eq_tail_drop, Nat.add_assoc]

/-- `SetNodes` against the reference decoder, at the same fuel: it runs out of fuel, returns
or throws exactly when the decoder does. When it returns it leaves the items and the table
entries of the decoded chunks, whatever items were there before. When it throws it leaves
the entries of the leaves decoded before the failure and the items `failedItems` describes. -/
theorem SetNodes_parseChunks {F : Type} (ops : FileOps F) (fuel : Nat) :
    ∀ (nd : List (Int × List Byte)) (items : List Node) (f : F),
      (parseChunks ops fuel f = none → SetNodes ops fuel nd items f = none) ∧
      (∀ ts, parseChunks ops fuel f = some (.chunks ts) →
        SetNodes ops fuel nd items f
          = some ⟨false, nd ++ ChunkTree.entriesOf ts, ChunkTree.toNodes nd.length ts⟩) ∧
      (∀ before stop, parseChunks ops fuel f = some (.failed before stop) →
        SetNodes ops fuel nd items f
          = some ⟨true, nd ++ (ChunkTree.entriesOf before ++ stop.entries),
              failedItems nd.length before stop items⟩) := by
  induction fuel with
  | zero => intro nd items f; simp [parseChunks, SetNodes]
  | succ fuel ih =>
    intro nd items f
    simp only [parseChunks, SetNodes]
    by_cases he : ops.eof f = true
    · simp [he, ChunkTree.entriesOf, ChunkTree.toNodes]
    · simp only [he, Bool.false_eq_true, if_false]
      cases hn : ops.newChunk f with
      | none =>
        simp [ChunkTree.entriesOf, Stop.entries, failedItems_nil, Stop.items]
      | some p =>
        obtain ⟨chunk, input1⟩ := p
        simp only []
        by_cases hg : chunk.isGroup = true
        · simp only [hg, if_true]
          have ihs := ih nd (placeItem chunk (-1) items).children (ops.getStream input1 chunk)
          cases hp : parseChunks ops fuel (ops.getStream input1 chunk) with
          | none => simp [ihs.1 hp]
          | some p1 =>
            cases p1 with
            | failed before stop =>
              have h1 := ihs.2.2 before stop hp
              simp only [h1, if_true]
              simp [ChunkTree.entriesOf, Stop.entries, Stop.items, ChunkTree.toNodes,
                ChunkTree.payloadsOf, placeItem_group chunk _ items _ hg,
                placeItem_children_group chunk _ items hg, failedItems]
            | chunks kids =>
              have h1 := ihs.2.1 kids hp
              simp only [h1, Bool.false_eq_true, if_false]
              have ihn := ih (nd ++ ChunkTree.entriesOf kids) items.tail
                (nextSibling ops input1 chunk)
              cases hp2 : parseChunks ops fuel (nextSibling ops input1 chunk) with
              | none => simp [ihn.1 hp2]
              | some p2 =>
                cases p2 with
                | failed before stop =>
                  simp [ihn.2.2 before stop hp2, ChunkTree.entriesOf, ChunkTree.entries,
                    failedItems_cons, ChunkTree.toNode, ChunkTree.payloads,
                    ChunkTree.entriesOf_length, placeItem_group chunk _ items _ hg]
                | chunks rest =>
                  simp [ihn.2.1 rest hp2, ChunkTree.entriesOf, ChunkTree.entries,
                    ChunkTree.toNodes, ChunkTree.toNode, ChunkTree.payloads,
                    ChunkTree.entriesOf_length, placeItem_group chunk _ items _ hg]
        · simp only [hg, Bool.false_eq_true, if_false]
          have hleaf : chunk.isGroup = false := by simpa using hg
          cases hd : ops.getData input1 chunk with
          | none =>
            simp [ChunkTree.entriesOf, Stop.entries, failedItems_nil, Stop.items,
              placeItem_leaf chunk _ items hleaf]
          | some data =>
            simp only []
            have ihn := ih (nd ++ [leafEntry chunk.size data]) items.tail
              (nextSibling ops input1 chunk)
            cases hp2 : parseChunks ops fuel (nextSibling ops input1 chunk) with
            | none => simp [ihn.1 hp2]
            | some p2 =>
              cases p2 with
              | failed before stop =>
                simp [ihn.2.2 before stop hp2, ChunkTree.entriesOf, ChunkTree.entries,
                  failedItems_cons, ChunkTree.toNode, ChunkTree.payloads,
                  placeItem_leaf chunk _ items hleaf]
              | chunks rest =>
                simp [ihn.2.1 rest hp2, ChunkTree.entriesOf, ChunkTree.entries,
                  ChunkTree.toNodes, ChunkTree.toNode, ChunkTree.payloads,
                  placeItem_leaf chunk _ items hleaf]

theorem SetNodes_returns {F : Type} (ops : FileOps F) (fuel : Nat)
    (nd : List (Int × List Byte)) (items : List Node) (f : F) (r : Outcome)
    (h : SetNodes ops fuel nd items f = some r) (hok : r.threw = false) :
    ∃ ts, parseChunks ops fuel f = some (.chunks ts) ∧
      r = ⟨false, nd ++ ChunkTree.entriesOf ts, ChunkTree.toNodes nd.length ts⟩ := by
  have hc := SetNodes_parseChunks ops fuel nd items f
  cases hp : parseChunks ops fuel f with
  | none => rw [hc.1 hp] at h; cases h
  | some p =>
    cases p with
    | failed before stop =>
      rw [hc.2.2 before stop hp] at h
      cases h
      cases hok
    | chunks ts =>
      refine ⟨ts, rfl, ?_⟩
      rw [hc.2.1 ts hp] at h
      cases h
      rfl

mutual
theorem ChunkTree.entries_snd : ∀ t : ChunkTree, t.entries.map Prod.snd = t.payloads
  | .leaf _ size data => by
    simp only [ChunkTree.entries, ChunkTree.payloads, List.map_cons, List.map_nil, leafEntry_snd]
  | .group _ _ cs => by
    simp only [ChunkTree.entries, ChunkTree.payloads]
    exact ChunkTree.entriesOf_snd cs
theorem ChunkTree.entriesOf_snd :
    ∀ ts : List ChunkTree, (ChunkTree.entriesOf ts).map Prod.snd = ChunkTree.payloadsOf ts
  | [] => rfl
  | t :: ts => by
    simp only [ChunkTree.entriesOf, ChunkTree.payloadsOf, List.map_append,
      ChunkTree.entries_snd t, ChunkTree.entriesOf_snd ts]
end

mutual
theorem ChunkTree.leafHandles_toNode : ∀ (t : ChunkTree) (k : Nat),
    (t.toNode k).leafHandles = (List.range' k t.payloads.length).map Int.ofNat
  | .leaf _ _ _, k => by
    simp [ChunkTree.toNode, Node.leafHandles, Node.leafHandlesOf, ChunkTree.payloads]
  | .group _ _ cs, k => by
    simp only [ChunkTree.toNode, Node.leafHandles, ChunkTree.payloads]
    simpa using ChunkTree.leafHandles_toNodes cs k
theorem ChunkTree.leafHandles_toNodes : ∀ (ts : List ChunkTree) (k : Nat),
    Node.leafHandlesOf (ChunkTree.toNodes k ts)
      = (List.range' k (ChunkTree.payloadsOf ts).length).map Int.ofNat
  | [], k => by simp [ChunkTree.toNodes, Node.leafHandlesOf, ChunkTree.payloadsOf]
  | t :: ts, k => by
    simp only [ChunkTree.toNodes, Node.leafHandlesOf, ChunkTree.payloadsOf, List.length_append,
      ChunkTree.leafHandles_toNode t k, ChunkTree.leafHandles_toNodes ts (k + t.payloads.length)]
    rw [← List.map_append, List.range'_append_1, Nat.add_comm]
end

mutual
theorem ChunkTree.groupHandles_toNode : ∀ (t : ChunkTree) (k : Nat),
    ∀ h ∈ (t.toNode k).groupHandles, h = -1
  | .leaf _ _ _, k => by
    simp [ChunkTree.toNode, Node.groupHandles, Node.groupHandlesOf]
  | .group _ _ cs, k => by
    intro h hh
    simp only [ChunkTree.toNode, Node.groupHandles, one_ne_zero, if_false,
      List.mem_cons] at hh
    rcases hh with h1 | h1
    · exact h1
    · exact ChunkTree.groupHandles_toNodes cs k h h1
theorem ChunkTree.groupHandles_toNodes : ∀ (ts : List ChunkTree) (k : Nat),
    ∀ h ∈ Node.groupHandlesOf (ChunkTree.toNodes k ts), h = -1
  | [], k => by simp [ChunkTree.toNodes, Node.groupHandlesOf]
  | t :: ts, k => by
    intro h hh
    simp only [ChunkTree.toNodes, Node.groupHandlesOf, List.mem_append] at hh
    rcases hh with h1 | h1
    · exact ChunkTree.groupHandles_toNode t k h h1
    · exact ChunkTree.groupHandles_toNodes ts _ h h1
end

mutual
theorem ChunkTree.handles_toNode : ∀ (t : ChunkTree) (k : Nat),
    ∀ h ∈ (t.toNode k).handles, h = -1 ∨ ((k : Int) ≤ h ∧ h < ((k + t.payloads.length : Nat) : Int))
  | .leaf _ _ _, k => by
    intro h hh
    simp only [ChunkTree.toNode, Node.handles, Node.handlesOf, List.mem_cons,
      List.not_mem_nil, or_false] at hh
    right
    simp only [ChunkTree.payloads, List.length_cons, List.length_nil]
    omega
  | .group _ _ cs, k => by
    intro h hh
    simp only [ChunkTree.toNode, Node.handles, List.mem_cons] at hh
    rcases hh with h1 | h1
    · exact Or.inl h1
    · exact ChunkTree.handles_toNodes cs k h h1
theorem ChunkTree.handles_toNodes : ∀ (ts : List ChunkTree) (k : Nat),
    ∀ h ∈ Node.handlesOf (ChunkTree.toNodes k ts),
      h = -1 ∨ ((k : Int) ≤ h ∧ h < ((k + (ChunkTree.payloadsOf ts).length : Nat) : Int))
  | [], k => by simp [ChunkTree.toNodes, Node.handlesOf]
  | t :: ts, k => by
    intro h hh
    simp only [ChunkTree.toNodes, Node.handlesOf, List.mem_append] at hh
    simp only [ChunkTree.payloadsOf, List.length_append]
    rcases hh with h1 | h1
    · rcases ChunkTree.handles_toNode t k h h1 with h2 | h2
      · exact Or.inl h2
      · right; omega
    · rcases ChunkTree.handles_toNodes ts _ h h1 with h2 | h2
      · exact Or.inl h2
      · right; omega
end

theorem ChunkTree.length_toNodes : ∀ (ts : List ChunkTree) (k : Nat),
    (ChunkTree.toNodes k ts).length = ts.length
  | [], _ => rfl
  | t :: ts, k => by
    simp only [ChunkTree.toNodes, List.length_cons, ChunkTree.length_toNodes ts]

/-- The root item of every reachable state is the "Chunk File" item with `cChildren = 1`
and handle -1: `FillNodeTree` inserts it so and nothing writes it again. -/
theorem Reachable.root {F : Type} (ops : FileOps F) (info : ApplicationInfo)
    (h : Reachable ops info) :
    (rootOf info).text = Title.chunkFile ∧ (rootOf info).cChildren = 1 ∧
      (rootOf info).lParam = -1 := by
  induction h with
  | init => exact ⟨rfl, rfl, rfl⟩
  | fill fuel file threw info next _ hfill ih =>
    unfold FillNodeTree at hfill
    split at hfill
    · cases hfill
    · cases hfill
      exact ih

theorem SetNodes_throws {F : Type} (ops : FileOps F) (fuel : Nat)
    (nd : List (Int × List Byte)) (items : List Node) (f : F) (r : Outcome)
    (h : SetNodes ops fuel nd items f = some r) (hthrew : r.threw = true) :
    ∃ before stop, parseChunks ops fuel f = some (.failed before stop) ∧
      r = ⟨true, nd ++ (ChunkTree.entriesOf before ++ stop.entries),
        failedItems nd.length before stop items⟩ := by
  have hc := SetNodes_parseChunks ops fuel nd items f
  cases hp : parseChunks ops fuel f with
  | none => rw [hc.1 hp] at h; cases h
  | some p =>
    cases p with
    | failed before stop =>
      refine ⟨before, stop, rfl, ?_⟩
      rw [hc.2.2 before stop hp] at h
      cases h
      rfl
    | chunks ts =>
      rw [hc.2.1 ts hp] at h
      cases h
      cases hthrew

theorem Stop.items_drop_one (stop : Stop) (k : Nat) (items : List Node) :
    (stop.items k items).drop 1 = items.drop 1 := by
  cases stop with
  | header => rfl
  | payload type size => simp [Stop.items]
  | inside type size before stop => simp [Stop.items]

theorem failedItems_take (k : Nat) (before : List ChunkTree) (stop : Stop) (items : List Node) :
    (failedItems k before stop items).take before.length = ChunkTree.toNodes k before := by
  unfold failedItems
  exact List.take_left' (ChunkTree.length_toNodes before k)

theorem failedItems_drop (k : Nat) (before : List ChunkTree) (stop : Stop) (items : List Node) :
    (failedItems k before stop items).drop (before.length + 1)
      = items.drop (before.length + 1) := by
  unfold failedItems
  have h := @List.drop_append _ (ChunkTree.toNodes k before)
    (stop.items (k + (ChunkTree.payloadsOf before).length) (items.drop before.length)) 1
  rw [ChunkTree.length_toNodes] at h
  rw [h, Stop.items_drop_one, List.drop_drop]

/-! ## Claims on `FillNodeTree` and `SetNodes` -/

/-- C5: after a successful `FillNodeTree` (from any state the application can be in), the
leaf table is indexed by discovery order: the tree below the root is the item tree of the
chunks `ts` of the source, the handles of the leaf items listed depth-first are
`0, 1, ..., n-1` where `n` is the number of table entries (so the table has as many entries
as the tree has leaf items), entry `k` holds the payload of the `k`-th leaf chunk, every
group item and the root carry -1, and every handle in the tree is -1 or a valid index. -/
theorem FillNodeTree_leaf_table_indexed {F : Type} (ops : FileOps F) (fuel : Nat)
    (info next : ApplicationInfo) (file : F) (hreach : Reachable ops info)
    (hfill : FillNodeTree ops fuel info file = some (false, next)) :
    ∃ root ts, next.tree = some root ∧ parseChunks ops fuel file = some (.chunks ts) ∧
      root.children = ChunkTree.toNodes 0 ts ∧
      root.leafHandles = (List.range next.nodeData.length).map Int.ofNat ∧
      next.nodeData.length = root.leafHandles.length ∧
      next.nodeData.map Prod.snd = ChunkTree.payloadsOf ts ∧
      (∀ h ∈ root.groupHandles, h = -1) ∧ root.lParam = -1 ∧
      (∀ h ∈ root.handles, h = -1 ∨ (0 ≤ h ∧ h < (next.nodeData.length : Int))) := by
  obtain ⟨htext, hcc, hlp⟩ := Reachable.root ops info hreach
  unfold FillNodeTree at hfill
  split at hfill
  · cases hfill
  · rename_i r hr
    simp only [Option.some.injEq, Prod.mk.injEq] at hfill
    obtain ⟨hthrew, hnext⟩ := hfill
    obtain ⟨ts, hparse, hform⟩ := SetNodes_returns ops fuel [] _ file r hr hthrew
    subst hnext
    subst hform
    simp only [List.nil_append, List.length_nil] at *
    rw [hcc, hlp]
    refine ⟨_, ts, rfl, hparse, rfl, ?_, ?_, ChunkTree.entriesOf_snd ts, ?_, rfl, ?_⟩
    · simp only [Node.leafHandles, one_ne_zero, if_false, ChunkTree.leafHandles_toNodes,
        ChunkTree.entriesOf_length, List.range_eq_range']
    · simp only [Node.leafHandles, one_ne_zero, if_false, ChunkTree.leafHandles_toNodes,
        ChunkTree.entriesOf_length, List.length_map, List.length_range']
    · intro h hh
      simp only [Node.groupHandles, one_ne_zero, if_false, List.mem_cons] at hh
      rcases hh with h1 | h1
      · exact h1
      · exact ChunkTree.groupHandles_toNodes ts 0 h h1
    · intro h hh
      simp only [Node.handles, List.mem_cons] at hh
      rcases hh with h1 | h1
      · exact Or.inl h1
      · rcases ChunkTree.handles_toNodes ts 0 h h1 with h2 | h2
        · exact Or.inl h2
        · right
          rw [ChunkTree.entriesOf_length]
          omega

/-- C5 witness: materializing `nestedFile` (a leaf, then a group holding a leaf) from the
empty start-up state gives handles 0 and 1 on the two leaves, -1 on the group and the root,
and a table with the two payloads in that order. -/
theorem FillNodeTree_leaf_table_indexed_witness :
    FillNodeTree (memOps flagFormat) 5 ⟨none, []⟩ nestedFile = some (false, nestedState) ∧
      ∃ root ts, nestedState.tree = some root ∧
        parseChunks (memOps flagFormat) 5 nestedFile = some (.chunks ts) ∧
        root.children = ChunkTree.toNodes 0 ts ∧
        root.leafHandles = (List.range nestedState.nodeData.length).map Int.ofNat ∧
        nestedState.nodeData.length = root.leafHandles.length ∧
        nestedState.nodeData.map Prod.snd = ChunkTree.payloadsOf ts ∧
        (∀ h ∈ root.groupHandles, h = -1) ∧ root.lParam = -1 ∧
        (∀ h ∈ root.handles, h = -1 ∨ (0 ≤ h ∧ h < (nestedState.nodeData.length : Int))) :=
  ⟨by rfl,
   FillNodeTree_leaf_table_indexed (memOps flagFormat) 5 ⟨none, []⟩ nestedState nestedFile
     Reachable.init (by rfl)⟩

/-- C7: materialization is idempotent. When `FillNodeTree` succeeds on a source, running it
again on the state it produced, with the same unchanged source, succeeds and leaves exactly
the same state: the same tree (shape, labels, group flags, handles) and the same leaf table
(sizes with their sign, payload bytes). -/
theorem FillNodeTree_idempotent {F : Type} (ops : FileOps F) (fuel : Nat)
    (info next : ApplicationInfo) (file : F)
    (hfill : FillNodeTree ops fuel info file = some (false, next)) :
    FillNodeTree ops fuel next file = some (false, next) := by
  unfold FillNodeTree at hfill
  split at hfill
  · cases hfill
  · rename_i r hr
    simp only [Option.some.injEq, Prod.mk.injEq] at hfill
    obtain ⟨hthrew, hnext⟩ := hfill
    obtain ⟨ts, hparse, hform⟩ := SetNodes_returns ops fuel [] _ file r hr hthrew
    subst hnext
    subst hform
    unfold FillNodeTree
    rw [(SetNodes_parseChunks ops fuel [] _ file).2.1 ts hparse]
    rfl

/-- C7 witness: `FillNodeTree` on `nestedFile` from the empty state gives `nestedState`, and
again on `nestedState` gives `nestedState`. -/
theorem FillNodeTree_idempotent_witness :
    FillNodeTree (memOps flagFormat) 5 ⟨none, []⟩ nestedFile = some (false, nestedState) ∧
      FillNodeTree (memOps flagFormat) 5 nestedState nestedFile = some (false, nestedState) :=
  ⟨by rfl,
   FillNodeTree_idempotent (memOps flagFormat) 5 ⟨none, []⟩ nestedState nestedFile (by rfl)⟩

/-- C8: a successful refresh leaves exactly what materializing into an empty tree leaves.
When `SetNodes`, run against any existing child items, returns normally, then run against
no items (same source, same table, same fuel) it returns the same outcome; the items left
are the item tree of the chunks `ts` of the new source: one item per chunk at each level,
in order, with the chunk's label, group flag and handle, no items beyond the chunk count,
and no children under a leaf. -/
theorem SetNodes_refresh_eq_fresh {F : Type} (ops : FileOps F) (fuel : Nat)
    (nd : List (Int × List Byte)) (items : List Node) (f : F) (r : Outcome)
    (h : SetNodes ops fuel nd items f = some r) (hok : r.threw = false) :
    SetNodes ops fuel nd [] f = some r ∧
      ∃ ts, parseChunks ops fuel f = some (.chunks ts) ∧
        r.items = ChunkTree.toNodes nd.length ts ∧ r.items.length = ts.length ∧
        r.nodeData = nd ++ ChunkTree.entriesOf ts := by
  obtain ⟨ts, hparse, hform⟩ := SetNodes_returns ops fuel nd items f r h hok
  subst hform
  exact ⟨(SetNodes_parseChunks ops fuel nd [] f).2.1 ts hparse, ts, hparse, rfl,
    ChunkTree.length_toNodes ts nd.length, rfl⟩

/-- C8 witness: three sibling leaves refreshed against a source with two leaf records
leaves exactly two items, the same as materializing the source into an empty tree. -/
theorem SetNodes_refresh_eq_fresh_witness :
    SetNodes (memOps flagFormat) 3 [] threeLeaves twoLeafFile = some twoLeafOutcome ∧
      twoLeafOutcome.items.length = 2 ∧
      (SetNodes (memOps flagFormat) 3 [] [] twoLeafFile = some twoLeafOutcome ∧
        ∃ ts, parseChunks (memOps flagFormat) 3 twoLeafFile = some (.chunks ts) ∧
          twoLeafOutcome.items = ChunkTree.toNodes ([] : List (Int × List Byte)).length ts ∧
          twoLeafOutcome.items.length = ts.length ∧
          twoLeafOutcome.nodeData = [] ++ ChunkTree.entriesOf ts) :=
  ⟨by rfl, by rfl,
   SetNodes_refresh_eq_fresh (memOps flagFormat) 3 [] threeLeaves twoLeafFile twoLeafOutcome
     (by rfl) (by rfl)⟩

/-- C6 (as amended): a failed `FillNodeTree` is not all-or-nothing; it leaves what was
written up to the failure. With `before` the top-level chunks decoded before the failure and
`stop` the place of the failure: the leaf table holds exactly the entries of the leaves read
before the failure and nothing of the previous table, so any other previous state fails with
the same table; the root item keeps its text, flag and handle; the first `before.length`
children of the root are the items of the chunks `before` (label, group flag, handle,
children of the new source); the child at the failing position is as `Stop.items` says
(untouched when the header read failed, else carrying the new chunk's label and handle, a
leaf without children, a group with its partly refreshed children); and the children after
the failing position are exactly the previous ones: nothing trailing is removed. -/
theorem FillNodeTree_failure_state {F : Type} (ops : FileOps F) (fuel : Nat)
    (info next : ApplicationInfo) (file : F)
    (hfill : FillNodeTree ops fuel info file = some (true, next)) :
    ∃ before stop, parseChunks ops fuel file = some (.failed before stop) ∧
      next.nodeData = ChunkTree.entriesOf before ++ stop.entries ∧
      next.tree = some (Node.mk (rootOf info).text (rootOf info).cChildren (rootOf info).lParam
        (failedItems 0 before stop (rootOf info).children)) ∧
      (failedItems 0 before stop (rootOf info).children).take before.length
        = ChunkTree.toNodes 0 before ∧
      (failedItems 0 before stop (rootOf info).children).drop (before.length + 1)
        = (rootOf info).children.drop (before.length + 1) ∧
      ∀ other : ApplicationInfo, ∃ next1,
        FillNodeTree ops fuel other file = some (true, next1) ∧
        next1.nodeData = next.nodeData := by
  unfold FillNodeTree at hfill
  split at hfill
  · cases hfill
  · rename_i r hr
    simp only [Option.some.injEq, Prod.mk.injEq] at hfill
    obtain ⟨hthrew, hnext⟩ := hfill
    obtain ⟨before, stop, hparse, hform⟩ := SetNodes_throws ops fuel [] _ file r hr hthrew
    subst hnext
    subst hform
    refine ⟨before, stop, hparse, by simp, by simp, failedItems_take 0 before stop _,
      failedItems_drop 0 before stop _, ?_⟩
    intro other
    refine ⟨⟨some (Node.mk (rootOf other).text (rootOf other).cChildren (rootOf other).lParam
      (failedItems 0 before stop (rootOf other).children)),
      [] ++ (ChunkTree.entriesOf before ++ stop.entries)⟩, ?_, rfl⟩
    unfold FillNodeTree
    rw [(SetNodes_parseChunks ops fuel [] (rootOf other).children file).2.2 before stop hparse]
    rfl

/-- C6 witness: refreshing `nestedState` against `truncatedFile` fails at the second header
and leaves `failedState`: the first child is the item of the new leaf, the second child is
the previous group item, and the table holds the one new entry. -/
theorem FillNodeTree_failure_state_witness :
    FillNodeTree (memOps flagFormat) 5 nestedState truncatedFile = some (true, failedState) ∧
      ∃ before stop,
        parseChunks (memOps flagFormat) 5 truncatedFile = some (.failed before stop) ∧
        failedState.nodeData = ChunkTree.entriesOf before ++ stop.entries ∧
        failedState.tree = some (Node.mk (rootOf nestedState).text
          (rootOf nestedState).cChildren (rootOf nestedState).lParam
          (failedItems 0 before stop (rootOf nestedState).children)) ∧
        (failedItems 0 before stop (rootOf nestedState).children).take before.length
          = ChunkTree.toNodes 0 before ∧
        (failedItems 0 before stop (rootOf nestedState).children).drop (before.length + 1)
          = (rootOf nestedState).children.drop (before.length + 1) ∧
        ∀ other : ApplicationInfo, ∃ next1,
          FillNodeTree (memOps flagFormat) 5 other truncatedFile = some (true, next1) ∧
          next1.nodeData = failedState.nodeData :=
  ⟨by rfl,
   FillNodeTree_failure_state (memOps flagFormat) 5 nestedState failedState truncatedFile
     (by rfl)⟩

/-- C6 (as stated) fails: `nestedState` was built by a successful `FillNodeTree`; refreshing
it against `truncatedFile`, whose second header is cut short, fails part-way, and both
`FillNodeTree` and `RefreshFile` leave `failedState`: the table lost its two entries and
holds the one leaf read before the failure, and the first item was relabelled to the new
chunk, with handle 0 now naming the new payload. -/
theorem FillNodeTree_not_all_or_nothing :
    FillNodeTree (memOps flagFormat) 5 ⟨none, []⟩ nestedFile = some (false, nestedState) ∧
      FillNodeTree (memOps flagFormat) 5 nestedState truncatedFile = some (true, failedState) ∧
      RefreshFile (memOps flagFormat) 5 nestedState (some truncatedFile) = some failedState ∧
      failedState.nodeData ≠ nestedState.nodeData ∧
      failedState.tree ≠ nestedState.tree := by
  refine ⟨by rfl, by rfl, by rfl, by decide, ?_⟩
  intro h
  have h1 := congrArg (fun t => (Option.map Node.children t).map (List.map Node.text)) h
  revert h1
  decide

/-- C4 (as amended): when `SetNodes` processes a leaf chunk of declared size `s < 2^31` with
payload bytes `d`, the entry it appends to the leaf table is `(e, d)` where `e` is negative
(mini-chunk interpretation) if and only if `0 < s < 0x1000` and `IsProbablyMiniChunk(s, d)`
accepts, and non-negative otherwise; in both cases the absolute value of `e` is `s`. -/
theorem SetNodes_leaf_entry {F : Type} (ops : FileOps F) (fuel : Nat)
    (nd : List (Int × List Byte)) (items : List Node) (f input1 : F) (chunk : Chunk)
    (data : List Byte) (r : Outcome)
    (heof : ops.eof f = false) (hnew : ops.newChunk f = some (chunk, input1))
    (hleaf : chunk.isGroup = false) (hdata : ops.getData input1 chunk = some data)
    (hsize : chunk.size < 2 ^ 31) (hrun : SetNodes ops (fuel + 1) nd items f = some r) :
    ∃ e : Int, r.nodeData[nd.length]? = some (e, data) ∧
      (e < 0 ↔ (0 < chunk.size ∧ chunk.size < 0x1000 ∧
        IsProbablyMiniChunk chunk.size data = true)) ∧
      (0 ≤ e ↔ ¬ (0 < chunk.size ∧ chunk.size < 0x1000 ∧
        IsProbablyMiniChunk chunk.size data = true)) ∧
      e.natAbs = chunk.size := by
  simp only [SetNodes, heof, hnew, hleaf, hdata, Bool.false_eq_true, if_false] at hrun
  split at hrun
  · cases hrun
  · rename_i r2 hr2
    cases hrun
    obtain ⟨l, hl⟩ := SetNodes_nodeData_append ops fuel _ _ _ _ hr2
    have hiff := leafEntry_neg_iff chunk.size data hsize
    refine ⟨(leafEntry chunk.size data).1, ?_, hiff, ?_, leafEntry_natAbs chunk.size data hsize⟩
    · simp only [hl, List.append_assoc]
      rw [List.getElem?_append_right (le_refl _)]
      simp only [Nat.sub_self, List.singleton_append, List.getElem?_cons_zero,
        Option.some.injEq]
      exact Prod.ext rfl (leafEntry_snd chunk.size data)
    · rw [← hiff]
      omega

/-- C4 witness: the first chunk of `twoLeafFile` is a leaf of size 3 with payload `05 01 07`,
which the classifier accepts; entry 0 of the table is `(-3, 05 01 07)`. -/
theorem SetNodes_leaf_entry_witness :
    twoLeafOutcome.nodeData[0]? = some (-3, [5, 1, 7]) ∧
      ∃ e : Int, twoLeafOutcome.nodeData[([] : List (Int × List Byte)).length]?
          = some (e, [5, 1, 7]) ∧
        (e < 0 ↔ (0 < firstLeaf.size ∧ firstLeaf.size < 0x1000 ∧
          IsProbablyMiniChunk firstLeaf.size [5, 1, 7] = true)) ∧
        (0 ≤ e ↔ ¬ (0 < firstLeaf.size ∧ firstLeaf.size < 0x1000 ∧
          IsProbablyMiniChunk firstLeaf.size [5, 1, 7] = true)) ∧
        e.natAbs = firstLeaf.size :=
  ⟨by decide,
   SetNodes_leaf_entry (memOps flagFormat) 2 [] [] twoLeafFile twoLeafAfterHeader firstLeaf
     [5, 1, 7] twoLeafOutcome (by decide) (by decide) (by decide) (by decide) (by decide)
     (by rfl)⟩

/-- C4 (as stated) fails in two ways. The classifier accepts the empty payload (size 0),
yet the stored size is 0, not negative. The classifier accepts the 4096-byte payload
`bigPayload`, yet the stored size is 4096: the guard `size < 0x1000` keeps it positive. -/
theorem leafEntry_not_iff_classifier :
    (IsProbablyMiniChunk 0 [] = true ∧ (leafEntry 0 []).1 = 0) ∧
      (bigPayload.length = 4096 ∧ IsProbablyMiniChunk 4096 bigPayload = true ∧
        (leafEntry 4096 bigPayload).1 = 4096) := by
  have hrep : ∀ (n : Nat) (r : MiniRecord),
      (encodeRecords (List.replicate n r)).length = n * (2 + r.payload.length) := by
    intro n r
    induction n with
    | zero => simp [encodeRecords]
    | succ n ih =>
      simp only [List.replicate_succ, encodeRecords, List.length_append, ih,
        MiniRecord.encode, List.length_cons]
      ring
  have hlen : bigPayload.length = 4096 := by
    unfold bigPayload
    rw [hrep, List.length_replicate]
  refine ⟨⟨by decide, by decide⟩, hlen, ?_, ?_⟩
  · have h := classifier_accepts_records (List.replicate 16 ⟨1, 254, List.replicate 254 0⟩)
      (by
        intro r hr
        rw [List.eq_of_mem_replicate hr]
        refine ⟨by decide, ?_⟩
        show (List.replicate 254 (0 : Byte)).length = _
        rw [List.length_replicate]
        rfl)
    have h2 : IsProbablyMiniChunk bigPayload.length bigPayload = true := h
    rw [hlen] at h2
    exact h2
  · rw [leafEntry_fst 4096 bigPayload (by decide)]
    rw [if_neg (by intro h; exact absurd h.1 (by decide))]
    rfl

/-! ## Termination of the traversal -/

end ChunkViewer
